import Mathlib

/-!
Verification of the PatchScope diff-annotation core (`src/diffannotator/annotate.py`
and `src/diffannotator/gather_data.py`) against its natural-language specification.

Python strings are modelled as `List Char`, with `'\n'` as the line terminator
(the terminator relevant to unified diffs).  Lexer tokens `(index, token_type,
value)` are modelled by the structure `Tok`; the pygments token-kind hierarchy is
collapsed to exactly the membership tests the program performs (`Token.Comment`
subtree, `Token.Text.Whitespace`, generic `Token.Text`, anything else).
Python dictionaries are modelled as insertion-ordered association lists.
-/

namespace PatchScope

/-- Collapsed pygments token kind: the program only ever tests membership in the
`Token.Comment` subtree, equality with `Token.Text.Whitespace`, and membership
in the `Token.Text` subtree (which contains the whitespace kind). -/
inductive TokenKind where
  | comment
  | whitespace
  | text
  | other
deriving DecidableEq, Repr

/-- A lexer token `(index, token_type, value)` as produced by
`pygments.lexer.Lexer.get_tokens_unprocessed` and consumed by `annotate.py`. -/
structure Tok where
  offset : Nat
  kind : TokenKind
  text : List Char
deriving DecidableEq, Repr

/-- Python `str.splitlines(keepends=True)`, restricted to `'\n'` as the only
line terminator. -/
def splitlines : List Char → List (List Char)
  | [] => []
  | c :: cs =>
    if c = '\n' then [c] :: splitlines cs
    else
      match splitlines cs with
      | [] => [[c]]
      | l :: ls => (c :: l) :: ls

/-- The loop of `line_ends_idx`: `[i for i, ch in enumerate(text, start=i0) if ch == '\n']`. -/
def lineEndsGo (i : Nat) : List Char → List Nat
  | [] => []
  | c :: cs => if c = '\n' then i :: lineEndsGo (i + 1) cs else lineEndsGo (i + 1) cs

/-- `line_ends_idx` from annotate.py: position + 1 of every `'\n'` in the text,
so that line `i` is `text[pos[i-1]:pos[i]]`. -/
def line_ends_idx (text : List Char) : List Nat := lineEndsGo 1 text

/-- The inner loop of `split_multiline_lex_tokens`: emit one token per line of
the split text, advancing the offset by the running count of emitted text. -/
def fragTokens (offset : Nat) (kind : TokenKind) : List (List Char) → List Tok
  | [] => []
  | l :: ls => ⟨offset, kind, l⟩ :: fragTokens (offset + l.length) kind ls

/-- The body of `split_multiline_lex_tokens` for a single token: if the token
text has at most one line, the token is yielded unchanged, otherwise one token
per line is emitted with updated offsets. -/
def splitTok (t : Tok) : List Tok :=
  if (splitlines t.text).length ≤ 1 then [t]
  else fragTokens t.offset t.kind (splitlines t.text)

/-- `split_multiline_lex_tokens` from annotate.py. -/
def split_multiline_lex_tokens (toks : List Tok) : List Tok :=
  (toks.map splitTok).flatten

/-- The loop of `group_tokens_by_line`: for each line-end index, pop tokens
whose start offset lies before it; a line with no tokens gets no entry
(`defaultdict` only creates entries on append). -/
def groupGo : Nat → List Nat → List Tok → List (Nat × List Tok)
  | _, [], _ => []
  | no, idx :: idxs, toks =>
    let assigned := toks.takeWhile (fun t => decide (t.offset < idx))
    let rest := toks.dropWhile (fun t => decide (t.offset < idx))
    if assigned.isEmpty then groupGo (no + 1) idxs rest
    else (no, assigned) :: groupGo (no + 1) idxs rest

/-- `group_tokens_by_line` from annotate.py: group a token stream by the line
of `code` it belongs to (mapping from line number to tokens, in insertion
order, as an association list). -/
def group_tokens_by_line (code : List Char) (tokens : List Tok) : List (Nat × List Tok) :=
  groupGo 0 (line_ends_idx code) tokens

/-- Python `dict` lookup on an insertion-ordered association list. -/
def pylookup {κ α : Type} [DecidableEq κ] (data : List (κ × α)) (k : κ) : Option α :=
  (data.find? (fun p => decide (p.1 = k))).map Prod.snd

/-- Python `min` over a list of int (none for an empty list). -/
def listMin : List Int → Option Int
  | [] => none
  | x :: xs => some (xs.foldl min x)

/-- Python `max` over a list of int (none for an empty list). -/
def listMax : List Int → Option Int
  | [] => none
  | x :: xs => some (xs.foldl max x)

/-- `n` consecutive integers starting at `a`. -/
def intRangeGo (a : Int) : Nat → List Int
  | 0 => []
  | n + 1 => a :: intRangeGo (a + 1) n

/-- Python `range(a, b + 1)` over integers. -/
def intRange (a b : Int) : List Int := intRangeGo a (b + 1 - a).toNat

/-- The fill loop of `front_fill_gaps`: walk the keys in order, remembering the
previous value; keys present in `data` update it, absent keys receive it. -/
def fillGo {α : Type} (data : List (Int × α)) : Option α → List Int → List (Int × Option α)
  | _, [] => []
  | prev, k :: ks =>
    match pylookup data k with
    | some v => (k, some v) :: fillGo data (some v) ks
    | none => (k, prev) :: fillGo data prev ks

/-- `front_fill_gaps` from annotate.py: fill any gaps in the keys of `data`
with the previous value, covering `range(min(keys), max(keys) + 1)`.
The `previous_value` variable starts as Python `None`, hence the `Option`
in the value type of the result. -/
def front_fill_gaps {α : Type} : List (Int × α) → List (Int × Option α)
  | [] => []
  | d :: ds =>
    fillGo (d :: ds) none
      (intRange ((ds.map Prod.fst).foldl min d.1) ((ds.map Prod.fst).foldl max d.1))

/-- Modelling glue: the Python code passes the `int`-keyed dict produced by
`group_tokens_by_line` straight to `front_fill_gaps`; here the `Nat` line
numbers are cast to `Int`. -/
def mapIntKeys {α : Type} (xs : List (Nat × α)) : List (Int × α) :=
  xs.map (fun p => ((p.1 : Int), p.2))

/-- Tokenizer-adapter contract (the lexer itself is an external collaborator):
starting at offset `n`, the tokens carry correct start offsets and their
nonempty texts tile the text contiguously and completely. -/
def tiles : Nat → List Tok → List Char → Bool
  | _, [], s => s.isEmpty
  | n, t :: ts, s =>
    decide (t.offset = n) && !t.text.isEmpty && decide (s.take t.text.length = t.text) &&
      tiles (n + t.text.length) ts (s.drop t.text.length)

/-- A line as produced by `splitlines` on fully terminated text: nonempty,
ends with `'\n'`, and contains no other `'\n'`. -/
def terminatedLine (l : List Char) : Prop :=
  l ≠ [] ∧ l.getLast? = some '\n' ∧ '\n' ∉ l.dropLast

/-- `s.dropLast` is `'\n'`-free: the text contains at most one newline and
only in final position (the invariant of split token fragments). -/
def nlOnlyAtEnd (s : List Char) : Bool :=
  s.dropLast.all (fun c => decide (c ≠ '\n'))

/-- Consecutively keyed association list starting at key `s`. -/
def natConsec {α : Type} (s : Nat) : List α → List (Nat × α)
  | [] => []
  | v :: vs => (s, v) :: natConsec (s + 1) vs

/-- Consecutively `Int`-keyed association list starting at key `s`. -/
def consec {α : Type} (s : Int) : List α → List (Int × α)
  | [] => []
  | v :: vs => (s, v) :: consec (s + 1) vs

/-- The value `previous_value` holds after the fill loop has walked `ks`. -/
def prevAfter {α : Type} (data : List (Int × α)) : Option α → List Int → Option α
  | prev, [] => prev
  | prev, k :: ks =>
    match pylookup data k with
    | some v => prevAfter data (some v) ks
    | none => prevAfter data prev ks

/-- Python `str.isspace` for one character (ASCII whitespace). -/
def pySpaceChar (c : Char) : Bool :=
  c == ' ' || c == '\t' || c == '\n' || c == '\r' || c == '\x0b' || c == '\x0c'

/-- Python `str.isspace`: nonempty and all characters whitespace. -/
def pyIsSpace (s : List Char) : Bool :=
  !s.isEmpty && s.all pySpaceChar

/-- The loop of `line_is_comment`, with `can` the `can_be_comment` flag; the
`else` branch sets `cannot_be_comment` and breaks, so the function returns
`can_be_comment and not cannot_be_comment = false`. -/
def lineIsCommentGo : Bool → List Tok → Bool
  | can, [] => can
  | _, t :: rest =>
    if t.kind = TokenKind.comment then lineIsCommentGo true rest
    else if t.kind = TokenKind.whitespace then lineIsCommentGo true rest
    else if (t.kind = TokenKind.text ∨ t.kind = TokenKind.whitespace) ∧ pyIsSpace t.text = true
      then lineIsCommentGo true rest
    else false

/-- `line_is_comment` from annotate.py: whether all tokens of a line can be
considered comment (`can_be_comment` starts out `False`). -/
def line_is_comment (toks : List Tok) : Bool := lineIsCommentGo false toks

/-- One token of a line is acceptable for a comment line: comment kind,
whitespace kind, or a generic text kind with whitespace-only content.
(Whitespace is itself inside the `Token.Text` subtree.) -/
def tokOkForComment (t : Tok) : Bool :=
  t.kind == TokenKind.comment || t.kind == TokenKind.whitespace ||
    ((t.kind == TokenKind.text || t.kind == TokenKind.whitespace) && pyIsSpace t.text)

/-- The per-line classification in `AnnotatedHunk.process`:
`'documentation' if line_is_comment(line_tokens) else 'code'`. -/
def defaultLineAnnot (toks : List Tok) : String :=
  if line_is_comment toks then "documentation" else "code"

/-- A Python value of the shape handled by `deep_update`: a scalar (int or
string), a mutable sequence, or a mapping (an insertion-ordered dict). -/
inductive Val where
  | vint (n : Int)
  | vstr (s : String)
  | list (xs : List Val)
  | dict (entries : List (String × Val))

/-- `v` is neither a `collections.abc.Mapping` nor a
`collections.abc.MutableSequence` (note that a Python `str` is not a
`MutableSequence`). -/
def Val.isScalar : Val → Bool
  | .list _ => false
  | .dict _ => false
  | _ => true

/-- Python `d[k] = v` on an insertion-ordered dict: an existing key keeps its
position, a new key is appended. -/
def dictInsert {α : Type} : List (String × α) → String → α → List (String × α)
  | [], k, v => [(k, v)]
  | (k', v') :: rest, k, v =>
    if k' = k then (k, v) :: rest else (k', v') :: dictInsert rest k v

/-- `deep_update` from annotate.py.  `d` is whatever Python value is passed
(`d.get` fails on a non-dict when there is at least one item to process);
`u` is the items of the update mapping.  A mapping value is merged
recursively into `d.get(k, {})`, a list value extends `d.get(k, [])`
(failing on a non-list), any other value overwrites.  Python exceptions
(`AttributeError` from `d.get`/`.extend` on a wrongly typed value) are
modelled by `none`. -/
def deep_update : Val → List (String × Val) → Option Val
  | d, [] => some d
  | Val.dict entries, (k, v) :: rest =>
    match v with
    | Val.dict uv =>
      match deep_update ((pylookup entries k).getD (Val.dict [])) uv with
      | some newv => deep_update (Val.dict (dictInsert entries k newv)) rest
      | none => none
    | Val.list ys =>
      match (pylookup entries k).getD (Val.list []) with
      | Val.list xs => deep_update (Val.dict (dictInsert entries k (Val.list (xs ++ ys)))) rest
      | _ => none
    | Val.vint n => deep_update (Val.dict (dictInsert entries k (Val.vint n))) rest
    | Val.vstr s => deep_update (Val.dict (dictInsert entries k (Val.vstr s))) rest
  | Val.vint _, _ :: _ => none
  | Val.vstr _, _ :: _ => none
  | Val.list _, _ :: _ => none
termination_by _ u => sizeOf u

/-- `PurposeCounterResults` from gather_data.py.  A `collections.Counter`
whose counts are produced only by `+= 1` increments is a multiset; Python
`Counter` equality and `Counter.__add__` on such counters coincide with
multiset equality and multiset sum. -/
structure PurposeCounterResults where
  processed_files : List String
  hunk_purposes : Multiset String
  added_line_purposes : Multiset String
  removed_line_purposes : Multiset String
deriving DecidableEq

/-- `PurposeCounterResults.__add__`: concatenate the processed-file lists and
add the three counters pairwise. -/
def PurposeCounterResults.add (a b : PurposeCounterResults) : PurposeCounterResults :=
  ⟨a.processed_files ++ b.processed_files,
   a.hunk_purposes + b.hunk_purposes,
   a.added_line_purposes + b.added_line_purposes,
   a.removed_line_purposes + b.removed_line_purposes⟩

instance : Add PurposeCounterResults := ⟨PurposeCounterResults.add⟩

/-- `PurposeCounterResults.default()`: the empty datastructure meant to work
as 0 for addition via `+`. -/
def PurposeCounterResults.default : PurposeCounterResults := ⟨[], 0, 0, 0⟩

/-- Outcome of `unidiff.PatchSet.from_filename(diff_path)`: the file system
and the diff parser are external collaborators, so the possible outcomes of
reading and parsing the file at `diff_path` are modelled explicitly.
`π` is the type of parsed per-file patches. -/
inductive ReadResult (π : Type) where
  | fileNotFound
  | permissionDenied
  | parseFailure
  | parsed (patch_set : List π)

/-- The exceptions `annotate_single_diff` can re-raise. -/
inductive PyExc where
  | fileNotFound
  | permissionDenied
deriving DecidableEq

/-- Python `dict.update`: insert every item of `u` into `d` in order. -/
def dictUpdate {α : Type} (d u : List (String × α)) : List (String × α) :=
  u.foldl (fun acc p => dictInsert acc p.1 p.2) d

/-- The annotation loop of `annotate_single_diff`: process the patched files
in order, merging each result with `dict.update`; the surrounding
`try ... except Exception` returns the annotations gathered so far as soon
as processing one patched file raises. -/
def annotateLoop {π φ ε : Type} (process : π → Except ε (List (String × φ))) :
    List π → List (String × φ) → List (String × φ)
  | [], acc => acc
  | pf :: rest, acc =>
    match process pf with
    | .ok d => annotateLoop process rest (dictUpdate acc d)
    | .error _ => acc

/-- `annotate_single_diff` from annotate.py.  `readRes` is the outcome of
reading and parsing the file at `diff_path`; `process` is the annotation of
one parsed patched file (`AnnotatedPatchedFile(...).process()`), which may
raise (`.error`).  A missing or unreadable file re-raises unless
`missing_ok` is set (it defaults to `False`); a parse failure returns the
empty dict; an exception while annotating an already parsed patch set is
caught and the annotations gathered so far are returned. -/
def annotate_single_diff {π φ ε : Type} (readRes : ReadResult π)
    (process : π → Except ε (List (String × φ))) (missing_ok : Bool := false) :
    Except PyExc (List (String × φ)) :=
  match readRes with
  | .fileNotFound => if missing_ok then .ok [] else .error .fileNotFound
  | .permissionDenied => if missing_ok then .ok [] else .error .permissionDenied
  | .parseFailure => .ok []
  | .parsed pfs => .ok (annotateLoop process pfs [])

/-- Type of a `unidiff` line in a hunk (`line_type`). -/
inductive LineType where
  | added
  | removed
  | context
  | emptyLine
deriving DecidableEq, Repr

/-- One line of a `unidiff.Hunk`: its type tag and its text (`line.value`). -/
structure HunkLine where
  line_type : LineType
  value : List Char
deriving DecidableEq, Repr

/-- The per-line data dict built by `AnnotatedHunk.add_line_annotation`. -/
structure LineAnnotData where
  id : Nat
  type : String
  purpose : String
  tokens : List Tok
deriving DecidableEq, Repr

/-- The part of `AnnotatedHunk.patch_data` written by
`add_line_annotation`: `plus` is `patch_data[target_file]["+"]` and
`minus` is `patch_data[source_file]["-"]`. -/
structure HunkPatchData where
  plus : List LineAnnotData
  minus : List LineAnnotData
deriving DecidableEq, Repr

/-- `AnnotatedHunk.add_line_annotation`: append the line data to the `"+"`
bucket of the target file for an added line, to the `"-"` bucket of the
source file for a removed line, and nowhere otherwise (only changed lines
are annotated). -/
def addLineAnnot (line_no : Nat) (change_type : LineType) (lineAnnot purpose : String)
    (tokens : List Tok) (acc : HunkPatchData) : HunkPatchData :=
  match change_type with
  | .added => { acc with plus := acc.plus ++ [⟨line_no, lineAnnot, purpose, tokens⟩] }
  | .removed => { acc with minus := acc.minus ++ [⟨line_no, lineAnnot, purpose, tokens⟩] }
  | _ => acc

/-- The forced-purpose loop of `AnnotatedHunk.process`
(`for line_idx, line in enumerate(self.hunk): self.add_line_annotation(...)`),
run when the file purpose is a key of `PURPOSE_TO_ANNOTATION`: every hunk
line is annotated with the mapped annotation and a single synthetic token
`(0, Token.Text, line.value)`, bypassing tokenization. -/
def processForcedGo (ann purpose : String) : Nat → List HunkLine → HunkPatchData → HunkPatchData
  | _, [], acc => acc
  | i, l :: rest, acc =>
    processForcedGo ann purpose (i + 1) rest
      (addLineAnnot i l.line_type ann purpose [⟨0, TokenKind.text, l.value⟩] acc)

/-- Forced mode of `AnnotatedHunk.process`, starting from the empty
`patch_data`; `ann` is `PURPOSE_TO_ANNOTATION[file_purpose]`. -/
def processForced (ann purpose : String) (hunk : List HunkLine) : HunkPatchData :=
  processForcedGo ann purpose 0 hunk ⟨[], []⟩

/-- The annotation record forced mode produces for line `l` at hunk index `i`. -/
def forcedRecord (ann purpose : String) (i : Nat) (l : HunkLine) : LineAnnotData :=
  ⟨i, ann, purpose, [⟨0, TokenKind.text, l.value⟩]⟩

/-- A concrete per-patched-file annotation step used to exercise
`annotate_single_diff`: patched file `0` annotates successfully, any other
patched file raises. -/
def demoProcess (n : Nat) : Except String (List (String × Nat)) :=
  if n = 0 then Except.ok [("f", 1)] else Except.error "boom"

/-! ## Theorems -/

/-- Claim C9: the default classifier returns `False` on the empty token list
(the `can_be_comment` flag is never set), so a changed line whose token group
is empty is classified `"code"`, not `"documentation"`, even though the empty
list vacuously satisfies "every token is a comment or whitespace token". -/
theorem C9_empty_token_list :
    line_is_comment ([] : List Tok) = false ∧ defaultLineAnnot [] = "code" :=
  ⟨rfl, rfl⟩

/-- Claim C2 counterexample: `PurposeCounterResults.__add__` concatenates the
`_processed_files` lists, so `A + B` and `B + A` differ whenever the two
values record different processed files.  The two values below are exactly
what `PurposeCounterResults.create` yields on two documents with distinct
file paths and no changed-file entries. -/
theorem C2_counterexample :
    ¬ ((⟨["a.json"], 0, 0, 0⟩ : PurposeCounterResults) + ⟨["b.json"], 0, 0, 0⟩ =
       (⟨["b.json"], 0, 0, 0⟩ : PurposeCounterResults) + ⟨["a.json"], 0, 0, 0⟩) := by
  intro h
  have hp : (["a.json"] ++ ["b.json"] : List String) = ["b.json"] ++ ["a.json"] :=
    congrArg PurposeCounterResults.processed_files h
  simp at hp

/-- Claim C2 (amended): combining two `PurposeCounterResults` in either order
gives identical counter components, and processed-file lists that are
permutations of one another (but not equal lists); combining with the
explicit identity `PurposeCounterResults.default()` leaves any value
unchanged on both sides. -/
theorem C2_add_commutes :
    (∀ A B : PurposeCounterResults,
      (A + B).hunk_purposes = (B + A).hunk_purposes ∧
      (A + B).added_line_purposes = (B + A).added_line_purposes ∧
      (A + B).removed_line_purposes = (B + A).removed_line_purposes ∧
      (A + B).processed_files.Perm (B + A).processed_files) ∧
    (∀ A : PurposeCounterResults,
      PurposeCounterResults.default + A = A ∧ A + PurposeCounterResults.default = A) := by
  constructor
  · intro A B
    exact ⟨add_comm A.hunk_purposes B.hunk_purposes,
           add_comm A.added_line_purposes B.added_line_purposes,
           add_comm A.removed_line_purposes B.removed_line_purposes,
           List.perm_append_comm⟩
  · intro A
    cases A with
    | mk pf hp ap rp =>
      constructor
      · show PurposeCounterResults.add PurposeCounterResults.default ⟨pf, hp, ap, rp⟩ = _
        simp [PurposeCounterResults.add, PurposeCounterResults.default]
      · show PurposeCounterResults.add ⟨pf, hp, ap, rp⟩ PurposeCounterResults.default = _
        simp [PurposeCounterResults.add, PurposeCounterResults.default]

/-- Claim C7: `annotate_single_diff` re-raises the not-found error for a
missing diff path when `missing_ok` is false (the default), returns the empty
mapping for a missing path when `missing_ok` is true, and returns the empty
mapping for a diff that fails to parse, regardless of `missing_ok`. -/
theorem C7_missing_file :
    ∀ {π φ ε : Type} (process : π → Except ε (List (String × φ))),
      annotate_single_diff (ReadResult.fileNotFound : ReadResult π) process =
        Except.error PyExc.fileNotFound ∧
      annotate_single_diff (ReadResult.fileNotFound : ReadResult π) process true =
        Except.ok [] ∧
      ∀ missing_ok : Bool,
        annotate_single_diff (ReadResult.parseFailure : ReadResult π) process missing_ok =
          Except.ok [] := by
  intro π φ ε process
  exact ⟨rfl, rfl, fun _ => rfl⟩

/-- The annotation loop stops at the first patched file whose processing
raises and keeps the annotations gathered so far. -/
theorem annotateLoop_stops {π φ ε : Type} (process : π → Except ε (List (String × φ)))
    (pfs₂ : List π) (pf : π) (e : ε) (he : process pf = Except.error e) :
    ∀ (pfs₁ : List π) (acc : List (String × φ)),
      (∀ p ∈ pfs₁, ∃ d, process p = Except.ok d) →
      annotateLoop process (pfs₁ ++ pf :: pfs₂) acc = annotateLoop process pfs₁ acc := by
  intro pfs₁
  induction pfs₁ with
  | nil =>
    intro acc _
    simp [annotateLoop, he]
  | cons p rest ih =>
    intro acc hok
    obtain ⟨d, hd⟩ := hok p (List.mem_cons_self p rest)
    simp only [List.cons_append, annotateLoop, hd]
    exact ih _ (fun q hq => hok q (List.mem_cons_of_mem p hq))

/-- Claim C10: once a diff file has been parsed, `annotate_single_diff`
never propagates an exception raised while annotating the parsed patch set:
the result is always `ok`, and if every patched file before `pf` annotates
successfully while `pf` raises, the annotations gathered from the successful
prefix are returned, even when `missing_ok` is false. -/
theorem C10_processing_caught :
    ∀ {π φ ε : Type} (process : π → Except ε (List (String × φ)))
      (pfs₁ pfs₂ : List π) (pf : π) (e : ε) (missing_ok : Bool),
      (∀ p ∈ pfs₁, ∃ d, process p = Except.ok d) →
      process pf = Except.error e →
      annotate_single_diff (ReadResult.parsed (pfs₁ ++ pf :: pfs₂)) process missing_ok =
        Except.ok (annotateLoop process pfs₁ []) := by
  intro π φ ε process pfs₁ pfs₂ pf e missing_ok hok he
  show Except.ok (annotateLoop process (pfs₁ ++ pf :: pfs₂) []) = _
  rw [annotateLoop_stops process pfs₂ pf e he pfs₁ [] hok]

/-- Witness for claim C10: patched file `1` raises, so annotating the parsed
patch set `[0, 1, 2]` returns the annotations gathered from patched file `0`
alone, with `missing_ok` false. -/
theorem C10_processing_caught_witness :
    annotate_single_diff (ReadResult.parsed [0, 1, 2]) demoProcess false =
      Except.ok [("f", 1)] := by
  have h := C10_processing_caught demoProcess [0] [2] 1 "boom" false
    (by
      intro p hp
      simp only [List.mem_singleton] at hp
      subst hp
      exact ⟨[("f", 1)], rfl⟩)
    rfl
  exact h

/-- The forced-mode loop appends, in hunk order, one record per added line to
the `"+"` bucket and one record per removed line to the `"-"` bucket. -/
theorem processForcedGo_spec (ann purpose : String) :
    ∀ (hunk : List HunkLine) (i : Nat) (acc : HunkPatchData),
      processForcedGo ann purpose i hunk acc =
        ⟨acc.plus ++ ((hunk.enumFrom i).filter
            (fun p => decide (p.2.line_type = LineType.added))).map
            (fun p => forcedRecord ann purpose p.1 p.2),
         acc.minus ++ ((hunk.enumFrom i).filter
            (fun p => decide (p.2.line_type = LineType.removed))).map
            (fun p => forcedRecord ann purpose p.1 p.2)⟩ := by
  intro hunk
  induction hunk with
  | nil =>
    intro i acc
    simp [processForcedGo, List.enumFrom]
  | cons l rest ih =>
    intro i acc
    show processForcedGo ann purpose (i + 1) rest (addLineAnnot i l.line_type ann purpose _ acc) = _
    rw [ih]
    cases hl : l.line_type <;>
      simp [addLineAnnot, List.enumFrom, hl, forcedRecord, List.append_assoc]

/-- Claim C8: for a hunk of a file whose purpose is registered in the
purpose-to-annotation override mapping, the `"+"` bucket holds exactly the
added lines and the `"-"` bucket exactly the removed lines, in original hunk
order, each annotated with the mapped annotation and carrying one synthetic
`(0, Token.Text, line.value)` token; context (and empty) lines yield no
records. -/
theorem C8_forced_mode :
    ∀ (p2a : List (String × String)) (purpose ann : String) (hunk : List HunkLine),
      pylookup p2a purpose = some ann →
      (processForced ann purpose hunk).plus =
        (hunk.enum.filter (fun p => decide (p.2.line_type = LineType.added))).map
          (fun p => forcedRecord ann purpose p.1 p.2) ∧
      (processForced ann purpose hunk).minus =
        (hunk.enum.filter (fun p => decide (p.2.line_type = LineType.removed))).map
          (fun p => forcedRecord ann purpose p.1 p.2) := by
  intro p2a purpose ann hunk _
  have h := processForcedGo_spec ann purpose hunk 0 ⟨[], []⟩
  constructor
  · show (processForcedGo ann purpose 0 hunk ⟨[], []⟩).plus = _
    rw [h]
    simp [List.enum]
  · show (processForcedGo ann purpose 0 hunk ⟨[], []⟩).minus = _
    rw [h]
    simp [List.enum]

/-- Witness for claim C8: with the default override mapping
`{"documentation": "documentation"}`, a hunk with one added, one context and
one removed line produces exactly one forced `"+"` record (hunk index 0) and
one forced `"-"` record (hunk index 2). -/
theorem C8_forced_mode_witness :
    (processForced "documentation" "documentation"
        [⟨LineType.added, ['x']⟩, ⟨LineType.context, ['y']⟩,
         ⟨LineType.removed, ['z']⟩]).plus =
      [⟨0, "documentation", "documentation", [⟨0, TokenKind.text, ['x']⟩]⟩] ∧
    (processForced "documentation" "documentation"
        [⟨LineType.added, ['x']⟩, ⟨LineType.context, ['y']⟩,
         ⟨LineType.removed, ['z']⟩]).minus =
      [⟨2, "documentation", "documentation", [⟨0, TokenKind.text, ['z']⟩]⟩] := by
  have h := C8_forced_mode [("documentation", "documentation")] "documentation" "documentation"
    [⟨LineType.added, ['x']⟩, ⟨LineType.context, ['y']⟩, ⟨LineType.removed, ['z']⟩]
    (by decide)
  exact ⟨h.1, h.2⟩

/-- One step of the `line_is_comment` loop: the three acceptable branches are
taken exactly when `tokOkForComment` holds of the head token, and the `else`
branch breaks with result `False`. -/
theorem lineIsCommentGo_cons (can : Bool) (t : Tok) (rest : List Tok) :
    lineIsCommentGo can (t :: rest) =
      if tokOkForComment t = true then lineIsCommentGo true rest else false := by
  cases hk : t.kind <;> cases hs : pyIsSpace t.text <;>
    simp [lineIsCommentGo, tokOkForComment, hk, hs]

/-- Behaviour of the `line_is_comment` loop: it returns `True` iff every
token is acceptable and either the `can_be_comment` flag was already set or
at least one token was seen. -/
theorem lineIsCommentGo_spec :
    ∀ (toks : List Tok) (can : Bool),
      lineIsCommentGo can toks = true ↔
        ((∀ t ∈ toks, tokOkForComment t = true) ∧ (can = true ∨ toks ≠ [])) := by
  intro toks
  induction toks with
  | nil =>
    intro can
    simp [lineIsCommentGo]
  | cons t rest ih =>
    intro can
    rw [lineIsCommentGo_cons]
    by_cases hok : tokOkForComment t = true
    · rw [if_pos hok, ih true]
      simp [hok]
    · rw [if_neg hok]
      simp only [Bool.not_eq_true] at hok
      simp [hok]

/-- Claim C4 counterexample: for the empty token list the right-hand side of
the claimed equivalence holds vacuously, yet the default classifier does not
mark the line "documentation" — so "documentation iff every token is
comment/whitespace/whitespace-only-text" fails as stated for every ordered
token list. -/
theorem C4_counterexample :
    ¬ ((line_is_comment ([] : List Tok) = true) ↔
        (∀ t ∈ ([] : List Tok), tokOkForComment t = true)) := by
  decide

/-- Claim C4 (amended): for every nonempty ordered token list, the default
classifier marks the line "documentation" iff every token's kind is within
the comment taxonomy, is the whitespace kind, or is a generic-text kind with
whitespace-only content; and any token failing this marks the line "code"
regardless of the tokens that follow it (so in particular a single
non-comment, non-whitespace token forces "code" no matter how many comment
tokens share the line). -/
theorem C4_default_classifier :
    (∀ toks : List Tok, toks ≠ [] →
      (line_is_comment toks = true ↔ ∀ t ∈ toks, tokOkForComment t = true)) ∧
    (∀ (pre : List Tok) (t : Tok) (post : List Tok),
      tokOkForComment t = false →
      line_is_comment (pre ++ t :: post) = false) := by
  constructor
  · intro toks hne
    rw [line_is_comment, lineIsCommentGo_spec]
    simp [hne]
  · intro pre t post hbad
    by_contra hc
    rw [Bool.not_eq_false] at hc
    have := ((lineIsCommentGo_spec (pre ++ t :: post) false).mp hc).1 t (by simp)
    rw [this] at hbad
    exact absurd hbad (by simp)

/-- Witness for claim C4: a single comment token classifies as
"documentation"; a comment token followed by an `other`-kind token followed
by another comment token classifies as "code" (the `other` token
short-circuits and the trailing comment token does not revert it). -/
theorem C4_default_classifier_witness :
    line_is_comment [⟨0, TokenKind.comment, ['/', '/']⟩] = true ∧
    line_is_comment [⟨0, TokenKind.comment, ['/', '/']⟩, ⟨2, TokenKind.other, ['x']⟩,
      ⟨3, TokenKind.comment, ['y']⟩] = false := by
  constructor
  · exact (C4_default_classifier.1 [⟨0, TokenKind.comment, ['/', '/']⟩] (by simp)).mpr
      (by decide)
  · exact C4_default_classifier.2 [⟨0, TokenKind.comment, ['/', '/']⟩]
      ⟨2, TokenKind.other, ['x']⟩ [⟨3, TokenKind.comment, ['y']⟩] (by decide)

theorem pylookup_cons {κ α : Type} [DecidableEq κ] (k' : κ) (v : α) (rest : List (κ × α))
    (k : κ) :
    pylookup ((k', v) :: rest) k = if k' = k then some v else pylookup rest k := by
  by_cases h : k' = k
  · subst h
    simp [pylookup]
  · simp [pylookup, h]

theorem pylookup_eq_none {κ α : Type} [DecidableEq κ] (data : List (κ × α)) (k : κ) :
    pylookup data k = none ↔ k ∉ data.map Prod.fst := by
  induction data with
  | nil => simp [pylookup]
  | cons p rest ih =>
    obtain ⟨k', v⟩ := p
    rw [List.map_cons, pylookup_cons]
    by_cases h : k' = k
    · subst h
      simp
    · rw [if_neg h, ih]
      constructor
      · intro hnot
        simp only [List.mem_cons]
        push_neg
        exact ⟨fun heq => h heq.symm, hnot⟩
      · intro hnot hmem
        exact hnot (List.mem_cons_of_mem _ hmem)

theorem pylookup_append_right {κ α : Type} [DecidableEq κ] (a b : List (κ × α)) (k : κ)
    (h : k ∉ a.map Prod.fst) : pylookup (a ++ b) k = pylookup b k := by
  induction a with
  | nil => rfl
  | cons p rest ih =>
    obtain ⟨k', v⟩ := p
    simp only [List.map_cons, List.mem_cons] at h
    push_neg at h
    rw [List.cons_append, pylookup_cons, if_neg (fun heq => h.1 heq.symm)]
    exact ih h.2

theorem pylookup_append_left {κ α : Type} [DecidableEq κ] (a b : List (κ × α)) (k : κ)
    (v : α) (h : pylookup a k = some v) : pylookup (a ++ b) k = some v := by
  induction a with
  | nil => simp [pylookup] at h
  | cons p rest ih =>
    obtain ⟨k', w⟩ := p
    rw [pylookup_cons] at h
    rw [List.cons_append, pylookup_cons]
    by_cases hk : k' = k
    · rwa [if_pos hk] at h ⊢
    · rw [if_neg hk] at h ⊢
      exact ih h

theorem pylookup_const {α : Type} (ks : List Int) (c : α) (k : Int) (h : k ∈ ks) :
    pylookup (ks.map (fun j => (j, c))) k = some c := by
  induction ks with
  | nil => simp at h
  | cons j rest ih =>
    rw [List.map_cons, pylookup_cons]
    by_cases hk : j = k
    · rw [if_pos hk]
    · rw [if_neg hk]
      rcases List.mem_cons.mp h with h1 | h2
      · exact absurd h1.symm hk
      · exact ih h2

theorem fillGo_map_fst {α : Type} (data : List (Int × α)) :
    ∀ (ks : List Int) (prev : Option α), (fillGo data prev ks).map Prod.fst = ks := by
  intro ks
  induction ks with
  | nil => intro prev; rfl
  | cons k rest ih =>
    intro prev
    cases h : pylookup data k <;> simp [fillGo, h, ih]

theorem fillGo_append {α : Type} (data : List (Int × α)) :
    ∀ (a b : List Int) (prev : Option α),
      fillGo data prev (a ++ b) =
        fillGo data prev a ++ fillGo data (prevAfter data prev a) b := by
  intro a
  induction a with
  | nil => intro b prev; rfl
  | cons k rest ih =>
    intro b prev
    cases h : pylookup data k <;> simp [fillGo, prevAfter, h, ih]

theorem prevAfter_append {α : Type} (data : List (Int × α)) :
    ∀ (a b : List Int) (prev : Option α),
      prevAfter data prev (a ++ b) = prevAfter data (prevAfter data prev a) b := by
  intro a
  induction a with
  | nil => intro b prev; rfl
  | cons k rest ih =>
    intro b prev
    cases h : pylookup data k <;> simp [prevAfter, h, ih]

theorem fillGo_absent {α : Type} (data : List (Int × α)) :
    ∀ (ks : List Int) (prev : Option α),
      (∀ k ∈ ks, pylookup data k = none) →
      fillGo data prev ks = ks.map (fun k => (k, prev)) := by
  intro ks
  induction ks with
  | nil => intro prev _; rfl
  | cons k rest ih =>
    intro prev habs
    rw [List.map_cons]
    have hk := habs k (List.mem_cons_self k rest)
    simp [fillGo, hk, ih prev (fun j hj => habs j (List.mem_cons_of_mem k hj))]

theorem intRangeGo_mem : ∀ (n : Nat) (a k : Int),
    k ∈ intRangeGo a n ↔ a ≤ k ∧ k < a + n := by
  intro n
  induction n with
  | zero => intro a k; simp [intRangeGo]
  | succ m ih =>
    intro a k
    rw [intRangeGo, List.mem_cons, ih]
    constructor
    · rintro (rfl | ⟨h1, h2⟩) <;> constructor <;> omega
    · rintro ⟨h1, h2⟩
      by_cases hk : k = a
      · exact Or.inl hk
      · exact Or.inr ⟨by omega, by omega⟩

theorem intRangeGo_append : ∀ (m n : Nat) (a : Int),
    intRangeGo a (m + n) = intRangeGo a m ++ intRangeGo (a + m) n := by
  intro m
  induction m with
  | zero =>
    intro n a
    simp [intRangeGo]
  | succ p ih =>
    intro n a
    rw [show p + 1 + n = (p + n) + 1 from by omega]
    rw [intRangeGo, intRangeGo, ih, List.cons_append]
    have hcast : a + 1 + (p : Int) = a + ((p + 1 : Nat) : Int) := by push_cast; ring
    rw [hcast]

theorem intRange_mem (a b k : Int) : k ∈ intRange a b ↔ a ≤ k ∧ k ≤ b := by
  rw [intRange, intRangeGo_mem]
  omega

theorem intRange_split (a b c : Int) (h1 : a ≤ b + 1) (h2 : b ≤ c) :
    intRange a c = intRange a b ++ intRange (b + 1) c := by
  rw [intRange, intRange, intRange,
    show (c + 1 - a).toNat = (b + 1 - a).toNat + (c + 1 - (b + 1)).toNat from by omega,
    intRangeGo_append]
  congr 2
  omega

theorem intRange_single (k : Int) : intRange k k = [k] := by
  rw [intRange, show (k + 1 - k).toNat = 1 from by omega]
  rfl

theorem foldl_min_le : ∀ (xs : List Int) (x y : Int), (y = x ∨ y ∈ xs) →
    xs.foldl min x ≤ y := by
  intro xs
  induction xs with
  | nil =>
    intro x y h
    rcases h with h | h
    · exact le_of_eq h.symm
    · exact absurd h (List.not_mem_nil y)
  | cons z zs ih =>
    intro x y h
    show zs.foldl min (min x z) ≤ y
    rcases h with h | h
    · exact le_trans (ih (min x z) (min x z) (Or.inl rfl))
        (le_trans (min_le_left x z) (le_of_eq h.symm))
    · rcases List.mem_cons.mp h with h1 | h2
      · exact le_trans (ih (min x z) (min x z) (Or.inl rfl))
          (le_trans (min_le_right x z) (le_of_eq h1.symm))
      · exact ih (min x z) y (Or.inr h2)

theorem foldl_max_ge : ∀ (xs : List Int) (x y : Int), (y = x ∨ y ∈ xs) →
    y ≤ xs.foldl max x := by
  intro xs
  induction xs with
  | nil =>
    intro x y h
    rcases h with h | h
    · exact le_of_eq h
    · exact absurd h (List.not_mem_nil y)
  | cons z zs ih =>
    intro x y h
    show y ≤ zs.foldl max (max x z)
    rcases h with h | h
    · exact le_trans (le_trans (le_of_eq h) (le_max_left x z))
        (ih (max x z) (max x z) (Or.inl rfl))
    · rcases List.mem_cons.mp h with h1 | h2
      · exact le_trans (le_trans (le_of_eq h1) (le_max_right x z))
          (ih (max x z) (max x z) (Or.inl rfl))
      · exact ih (max x z) y (Or.inr h2)

theorem front_fill_gaps_cons {α : Type} (d : Int × α) (ds : List (Int × α)) :
    front_fill_gaps (d :: ds) =
      fillGo (d :: ds) none
        (intRange ((ds.map Prod.fst).foldl min d.1) ((ds.map Prod.fst).foldl max d.1)) :=
  rfl

/-- Claim C5: `front_fill_gaps {1: 'a', 3: 'c'} = {1: 'a', 2: 'a', 3: 'c'}`
(values are wrapped in `some` because the Python `previous_value` variable
starts as `None`); the empty mapping maps to the empty mapping; every key of
the output lies within `[min_key, max_key]` of the input; and every gap key
receives the value of the nearest preceding input key. -/
theorem C5_front_fill :
    front_fill_gaps [((1 : Int), "a"), (3, "c")] =
      [(1, some "a"), (2, some "a"), (3, some "c")] ∧
    front_fill_gaps ([] : List (Int × String)) = [] ∧
    (∀ (α : Type) (data : List (Int × α)) (mn mx : Int),
      listMin (data.map Prod.fst) = some mn →
      listMax (data.map Prod.fst) = some mx →
      ∀ p ∈ front_fill_gaps data, mn ≤ p.1 ∧ p.1 ≤ mx) ∧
    (∀ (α : Type) (data : List (Int × α)) (mx k k' : Int) (v : α),
      listMax (data.map Prod.fst) = some mx →
      k ≤ mx →
      k ∉ data.map Prod.fst →
      k' ∈ data.map Prod.fst →
      k' < k →
      (∀ k'' ∈ data.map Prod.fst, k'' < k → k'' ≤ k') →
      pylookup data k' = some v →
      pylookup (front_fill_gaps data) k = some (some v)) := by
  refine ⟨by decide, rfl, ?_, ?_⟩
  · intro α data mn mx hmn hmx p hp
    cases data with
    | nil => simp [front_fill_gaps] at hp
    | cons d ds =>
      rw [front_fill_gaps_cons] at hp
      rw [List.map_cons, listMin] at hmn
      rw [List.map_cons, listMax] at hmx
      have hmn' := Option.some.inj hmn
      have hmx' := Option.some.inj hmx
      have hkey : p.1 ∈ intRange mn mx := by
        rw [← hmn', ← hmx', ← fillGo_map_fst (d :: ds)
          (intRange ((ds.map Prod.fst).foldl min d.1) ((ds.map Prod.fst).foldl max d.1)) none]
        exact List.mem_map_of_mem Prod.fst hp
      exact (intRange_mem mn mx p.1).mp hkey
  · intro α data mx k k' v hmx hkmx hkabs hk'mem hk'lt hnear hk'val
    cases data with
    | nil => simp at hk'mem
    | cons d ds =>
      rw [List.map_cons, listMax] at hmx
      have hmx' := Option.some.inj hmx
      rw [List.map_cons] at hk'mem hkabs hnear
      set mn := (ds.map Prod.fst).foldl min d.1 with hmn'
      have hmnk' : mn ≤ k' := foldl_min_le (ds.map Prod.fst) d.1 k'
        (by rcases List.mem_cons.mp hk'mem with h | h
            · exact Or.inl h
            · exact Or.inr h)
      have hsplit1 : intRange mn mx = intRange mn k' ++ intRange (k' + 1) mx :=
        intRange_split mn k' mx (by omega) (by omega)
      have hsplit2 : intRange (k' + 1) mx = intRange (k' + 1) k ++ intRange (k + 1) mx :=
        intRange_split (k' + 1) k mx (by omega) hkmx
      have hsplit3 : intRange mn k' = intRange mn (k' - 1) ++ intRange k' k' := by
        have h := intRange_split mn (k' - 1) k' (by omega) (by omega)
        rwa [show k' - 1 + 1 = k' from by omega] at h
      have hprev : prevAfter (d :: ds) none (intRange mn k') = some v := by
        rw [hsplit3, prevAfter_append, intRange_single]
        simp [prevAfter, hk'val]
      have habsent : ∀ j ∈ intRange (k' + 1) k, pylookup (d :: ds) j = none := by
        intro j hj
        have hj' := (intRange_mem (k' + 1) k j).mp hj
        rw [pylookup_eq_none, List.map_cons]
        intro hjmem
        by_cases hjk : j = k
        · exact hkabs (hjk ▸ hjmem)
        · have := hnear j hjmem (by omega)
          omega
      rw [front_fill_gaps_cons, ← hmn', hmx', hsplit1, fillGo_append, hprev, hsplit2,
        fillGo_append, fillGo_absent (d :: ds) (intRange (k' + 1) k) (some v) habsent]
      rw [pylookup_append_right]
      · exact pylookup_append_left _ _ k (some v)
          (pylookup_const (intRange (k' + 1) k) (some v) k
            ((intRange_mem (k' + 1) k k).mpr ⟨by omega, le_refl k⟩))
      · rw [fillGo_map_fst]
        intro hmem
        have := (intRange_mem mn k' k).mp hmem
        omega

/-- Witness for claim C5: in `front_fill_gaps {1: 'a', 3: 'c'}`, the gap key
`2` lies within `[1, 3]` and receives the value of the nearest preceding
key `1`. -/
theorem C5_front_fill_witness :
    ((1 : Int) ≤ 2 ∧ (2 : Int) ≤ 3) ∧
    pylookup (front_fill_gaps [((1 : Int), "a"), (3, "c")]) 2 = some (some "a") := by
  constructor
  · exact C5_front_fill.2.2.1 String [((1 : Int), "a"), (3, "c")] 1 3 rfl rfl
      (2, some "a") (by decide)
  · exact C5_front_fill.2.2.2 String [((1 : Int), "a"), (3, "c")] 3 2 1 "a"
      rfl (by decide) (by decide) (by decide) (by decide)
      (by intro k'' hmem hlt
          simp at hmem
          rcases hmem with h | h <;> omega)
      (by decide)

theorem dictInsert_lookup_self {α : Type} :
    ∀ (es : List (String × α)) (k : String) (v : α),
      pylookup (dictInsert es k v) k = some v := by
  intro es
  induction es with
  | nil =>
    intro k v
    rw [dictInsert, pylookup_cons, if_pos rfl]
  | cons p rest ih =>
    intro k v
    obtain ⟨k', v'⟩ := p
    rw [dictInsert]
    by_cases h : k' = k
    · rw [if_pos h, pylookup_cons, if_pos rfl]
    · rw [if_neg h, pylookup_cons, if_neg h]
      exact ih k v

theorem dictInsert_lookup_ne {α : Type} :
    ∀ (es : List (String × α)) (kI k : String) (v : α), kI ≠ k →
      pylookup (dictInsert es kI v) k = pylookup es k := by
  intro es
  induction es with
  | nil =>
    intro kI k v h
    rw [dictInsert, pylookup_cons, if_neg h]
  | cons p rest ih =>
    intro kI k v h
    obtain ⟨k', v'⟩ := p
    rw [dictInsert]
    by_cases hk : k' = kI
    · rw [if_pos hk, pylookup_cons, if_neg h, hk, pylookup_cons, if_neg h]
    · rw [if_neg hk, pylookup_cons, pylookup_cons, ih kI k v h]

/-- Whenever `deep_update` succeeds on a dict, the result is a dict. -/
theorem deep_update_dict_shape :
    ∀ (u es : List (String × Val)) (r : Val),
      deep_update (Val.dict es) u = some r → ∃ res, r = Val.dict res := by
  intro u
  induction u with
  | nil =>
    intro es r h
    simp only [deep_update] at h
    exact ⟨es, (Option.some.inj h).symm⟩
  | cons p rest ih =>
    intro es r h
    obtain ⟨k, v⟩ := p
    cases v with
    | vint n =>
      simp only [deep_update] at h
      exact ih _ r h
    | vstr s =>
      simp only [deep_update] at h
      exact ih _ r h
    | dict uv =>
      simp only [deep_update] at h
      cases hdu : deep_update ((pylookup es k).getD (Val.dict [])) uv with
      | none => rw [hdu] at h; simp at h
      | some newv =>
        rw [hdu] at h
        exact ih _ r h
    | list ys =>
      simp only [deep_update] at h
      cases hl : (pylookup es k).getD (Val.list []) with
      | list xs =>
        rw [hl] at h
        exact ih _ r h
      | vint n => rw [hl] at h; simp at h
      | vstr s => rw [hl] at h; simp at h
      | dict es' => rw [hl] at h; simp at h

/-- `deep_update` over a concatenation of update items is sequential
composition. -/
theorem deep_update_append :
    ∀ (a es b : List (String × Val)),
      deep_update (Val.dict es) (a ++ b) =
        (deep_update (Val.dict es) a).bind (fun r => deep_update r b) := by
  intro a
  induction a with
  | nil =>
    intro es b
    rw [List.nil_append]
    simp only [deep_update]
    rfl
  | cons p rest ih =>
    intro es b
    obtain ⟨k, v⟩ := p
    rw [List.cons_append]
    cases v with
    | vint n =>
      simp only [deep_update]
      exact ih _ b
    | vstr s =>
      simp only [deep_update]
      exact ih _ b
    | dict uv =>
      simp only [deep_update]
      cases hdu : deep_update ((pylookup es k).getD (Val.dict [])) uv with
      | none => simp
      | some newv => exact ih _ b
    | list ys =>
      simp only [deep_update]
      cases hl : (pylookup es k).getD (Val.list []) with
      | list xs => exact ih _ b
      | vint n => simp
      | vstr s => simp
      | dict es' => simp

/-- Keys not mentioned by the update keep their value through
`deep_update`. -/
theorem deep_update_preserve :
    ∀ (u es res : List (String × Val)) (k : String),
      k ∉ u.map Prod.fst →
      deep_update (Val.dict es) u = some (Val.dict res) →
      pylookup res k = pylookup es k := by
  intro u
  induction u with
  | nil =>
    intro es res k _ h
    simp only [deep_update] at h
    have h2 := Option.some.inj h
    injection h2 with h3
    rw [h3]
  | cons p rest ih =>
    intro es res k hk h
    obtain ⟨k₁, v⟩ := p
    rw [List.map_cons] at hk
    have hk₁ : k₁ ≠ k := fun heq => hk (heq ▸ List.mem_cons_self k₁ _)
    have hkrest : k ∉ rest.map Prod.fst := fun hm => hk (List.mem_cons_of_mem _ hm)
    cases v with
    | vint n =>
      simp only [deep_update] at h
      rw [ih _ res k hkrest h, dictInsert_lookup_ne es k₁ k _ hk₁]
    | vstr s =>
      simp only [deep_update] at h
      rw [ih _ res k hkrest h, dictInsert_lookup_ne es k₁ k _ hk₁]
    | dict uv =>
      simp only [deep_update] at h
      cases hdu : deep_update ((pylookup es k₁).getD (Val.dict [])) uv with
      | none => rw [hdu] at h; simp at h
      | some newv =>
        rw [hdu] at h
        rw [ih _ res k hkrest h, dictInsert_lookup_ne es k₁ k _ hk₁]
    | list ys =>
      simp only [deep_update] at h
      cases hl : (pylookup es k₁).getD (Val.list []) with
      | list xs =>
        rw [hl] at h
        rw [ih _ res k hkrest h, dictInsert_lookup_ne es k₁ k _ hk₁]
      | vint n => rw [hl] at h; simp at h
      | vstr s => rw [hl] at h; simp at h
      | dict es' => rw [hl] at h; simp at h

/-- Claim C3: `deep_update` satisfies the deep-merge law.  Merging
`{"a": {"b": 1}}` with `{"a": {"c": 2}}` yields `{"a": {"b": 1, "c": 2}}`;
a list-valued key concatenates the existing list with the update list;
a mapping-valued key is merged recursively (the result at that key is the
recursive `deep_update` of the existing sub-dict with the update items);
a scalar-valued key overwrites; and a key that the update does not mention
keeps its value from the first argument (so no nested value already present
is dropped).  Python duck-typing failures on mismatched shapes are `none`,
so all statements are over successful runs. -/
theorem C3_deep_update :
    (deep_update (Val.dict [("a", Val.dict [("b", Val.vint 1)])])
        [("a", Val.dict [("c", Val.vint 2)])]
      = some (Val.dict [("a", Val.dict [("b", Val.vint 1), ("c", Val.vint 2)])])) ∧
    (∀ (es u₁ u₂ : List (String × Val)) (k : String) (xs ys : List Val) (r : Val),
      pylookup es k = some (Val.list xs) →
      k ∉ u₁.map Prod.fst → k ∉ u₂.map Prod.fst →
      deep_update (Val.dict es) (u₁ ++ (k, Val.list ys) :: u₂) = some r →
      ∃ res, r = Val.dict res ∧ pylookup res k = some (Val.list (xs ++ ys))) ∧
    (∀ (es u₁ u₂ ds uv : List (String × Val)) (k : String) (r : Val),
      pylookup es k = some (Val.dict ds) →
      k ∉ u₁.map Prod.fst → k ∉ u₂.map Prod.fst →
      deep_update (Val.dict es) (u₁ ++ (k, Val.dict uv) :: u₂) = some r →
      ∃ res m, r = Val.dict res ∧ deep_update (Val.dict ds) uv = some m ∧
        pylookup res k = some m) ∧
    (∀ (es u₁ u₂ : List (String × Val)) (k : String) (v : Val) (r : Val),
      v.isScalar = true →
      k ∉ u₁.map Prod.fst → k ∉ u₂.map Prod.fst →
      deep_update (Val.dict es) (u₁ ++ (k, v) :: u₂) = some r →
      ∃ res, r = Val.dict res ∧ pylookup res k = some v) ∧
    (∀ (es u : List (String × Val)) (k : String) (r : Val),
      k ∉ u.map Prod.fst →
      deep_update (Val.dict es) u = some r →
      ∃ res, r = Val.dict res ∧ pylookup res k = pylookup es k) := by
  refine ⟨by simp [deep_update, pylookup, dictInsert], ?_, ?_, ?_, ?_⟩
  · intro es u₁ u₂ k xs ys r hxs h1 h2 hdu
    rw [deep_update_append] at hdu
    cases hdu₁ : deep_update (Val.dict es) u₁ with
    | none => rw [hdu₁] at hdu; simp at hdu
    | some r₁ =>
      rw [hdu₁] at hdu
      obtain ⟨es₁, rfl⟩ := deep_update_dict_shape u₁ es r₁ hdu₁
      simp only [Option.some_bind] at hdu
      have hes₁ : pylookup es₁ k = some (Val.list xs) := by
        rw [deep_update_preserve u₁ es es₁ k h1 hdu₁]
        exact hxs
      simp only [deep_update, hes₁, Option.getD_some] at hdu
      obtain ⟨res, rfl⟩ := deep_update_dict_shape u₂ _ r hdu
      refine ⟨res, rfl, ?_⟩
      rw [deep_update_preserve u₂ _ res k h2 hdu, dictInsert_lookup_self]
  · intro es u₁ u₂ ds uv k r hds h1 h2 hdu
    rw [deep_update_append] at hdu
    cases hdu₁ : deep_update (Val.dict es) u₁ with
    | none => rw [hdu₁] at hdu; simp at hdu
    | some r₁ =>
      rw [hdu₁] at hdu
      obtain ⟨es₁, rfl⟩ := deep_update_dict_shape u₁ es r₁ hdu₁
      simp only [Option.some_bind] at hdu
      have hes₁ : pylookup es₁ k = some (Val.dict ds) := by
        rw [deep_update_preserve u₁ es es₁ k h1 hdu₁]
        exact hds
      simp only [deep_update, hes₁, Option.getD_some] at hdu
      cases hm : deep_update (Val.dict ds) uv with
      | none => rw [hm] at hdu; simp at hdu
      | some m =>
        rw [hm] at hdu
        obtain ⟨res, rfl⟩ := deep_update_dict_shape u₂ _ r hdu
        refine ⟨res, m, rfl, rfl, ?_⟩
        rw [deep_update_preserve u₂ _ res k h2 hdu, dictInsert_lookup_self]
  · intro es u₁ u₂ k v r hscalar h1 h2 hdu
    rw [deep_update_append] at hdu
    cases hdu₁ : deep_update (Val.dict es) u₁ with
    | none => rw [hdu₁] at hdu; simp at hdu
    | some r₁ =>
      rw [hdu₁] at hdu
      obtain ⟨es₁, rfl⟩ := deep_update_dict_shape u₁ es r₁ hdu₁
      simp only [Option.some_bind] at hdu
      cases v with
      | dict uv => simp [Val.isScalar] at hscalar
      | list ys => simp [Val.isScalar] at hscalar
      | vint n =>
        simp only [deep_update] at hdu
        obtain ⟨res, rfl⟩ := deep_update_dict_shape u₂ _ r hdu
        refine ⟨res, rfl, ?_⟩
        rw [deep_update_preserve u₂ _ res k h2 hdu, dictInsert_lookup_self]
      | vstr s =>
        simp only [deep_update] at hdu
        obtain ⟨res, rfl⟩ := deep_update_dict_shape u₂ _ r hdu
        refine ⟨res, rfl, ?_⟩
        rw [deep_update_preserve u₂ _ res k h2 hdu, dictInsert_lookup_self]
  · intro es u k r hk hdu
    obtain ⟨res, rfl⟩ := deep_update_dict_shape u es r hdu
    exact ⟨res, rfl, deep_update_preserve u es res k hk hdu⟩

/-- Witness for claim C3: updating `{"l": [1]}` with `{"l": [2]}` stores the
concatenated list `[1, 2]` under `"l"`, and updating `{"keep": 7}` with
`{"other": 1}` keeps the value of the unmentioned key `"keep"`. -/
theorem C3_deep_update_witness :
    pylookup [("l", Val.list [Val.vint 1, Val.vint 2])] "l" =
      some (Val.list ([Val.vint 1] ++ [Val.vint 2])) ∧
    pylookup [("keep", Val.vint 7), ("other", Val.vint 1)] "keep" =
      pylookup [("keep", Val.vint 7)] "keep" := by
  constructor
  · obtain ⟨res, hr, hl⟩ := C3_deep_update.2.1
      [("l", Val.list [Val.vint 1])] [] [] "l" [Val.vint 1] [Val.vint 2]
      (Val.dict [("l", Val.list [Val.vint 1, Val.vint 2])])
      (by simp [pylookup]) (by simp) (by simp)
      (by simp [deep_update, pylookup, dictInsert])
    injection hr with hr'
    rw [← hr'] at hl
    exact hl
  · obtain ⟨res, hr, hl⟩ := C3_deep_update.2.2.2.2
      [("keep", Val.vint 7)] [("other", Val.vint 1)] "keep"
      (Val.dict [("keep", Val.vint 7), ("other", Val.vint 1)])
      (by simp)
      (by simp [deep_update, pylookup, dictInsert])
    injection hr with hr'
    rw [← hr'] at hl
    exact hl

theorem splitlines_cons_nl (cs : List Char) :
    splitlines ('\n' :: cs) = ['\n'] :: splitlines cs := by
  simp [splitlines]

theorem splitlines_cons_not_nl_nil (c : Char) (cs : List Char) (h : ¬ c = '\n')
    (h2 : splitlines cs = []) : splitlines (c :: cs) = [[c]] := by
  simp [splitlines, h, h2]

theorem splitlines_cons_not_nl_cons (c : Char) (cs l : List Char) (ls : List (List Char))
    (h : ¬ c = '\n') (h2 : splitlines cs = l :: ls) :
    splitlines (c :: cs) = (c :: l) :: ls := by
  simp [splitlines, h, h2]

theorem splitlines_flatten : ∀ s : List Char, (splitlines s).flatten = s := by
  intro s
  induction s with
  | nil => rfl
  | cons c cs ih =>
    by_cases h : c = '\n'
    · subst h
      rw [splitlines_cons_nl, List.flatten_cons, ih]
      rfl
    · cases hsp : splitlines cs with
      | nil =>
        rw [hsp, List.flatten_nil] at ih
        rw [splitlines_cons_not_nl_nil c cs h hsp, ← ih]
        rfl
      | cons l ls =>
        rw [hsp] at ih
        rw [splitlines_cons_not_nl_cons c cs l ls h hsp, List.flatten_cons, List.cons_append,
          ← List.flatten_cons, ih]

theorem splitlines_eq_nil : ∀ s : List Char, splitlines s = [] ↔ s = [] := by
  intro s
  cases s with
  | nil => simp [splitlines]
  | cons c cs =>
    constructor
    · intro h
      by_cases hc : c = '\n'
      · subst hc
        rw [splitlines_cons_nl] at h
        exact absurd h (by simp)
      · cases hsp : splitlines cs with
        | nil => rw [splitlines_cons_not_nl_nil c cs hc hsp] at h; exact absurd h (by simp)
        | cons l ls => rw [splitlines_cons_not_nl_cons c cs l ls hc hsp] at h
                       exact absurd h (by simp)
    · intro h
      exact absurd h (by simp)

theorem mem_splitlines_ne_nil : ∀ (s l : List Char), l ∈ splitlines s → l ≠ [] := by
  intro s
  induction s with
  | nil => intro l h; simp [splitlines] at h
  | cons c cs ih =>
    intro l h
    by_cases hc : c = '\n'
    · subst hc
      rw [splitlines_cons_nl] at h
      rcases List.mem_cons.mp h with h1 | h2
      · subst h1; simp
      · exact ih l h2
    · cases hsp : splitlines cs with
      | nil =>
        rw [splitlines_cons_not_nl_nil c cs hc hsp] at h
        rcases List.mem_cons.mp h with h1 | h2
        · subst h1; simp
        · simp at h2
      | cons l0 ls =>
        rw [splitlines_cons_not_nl_cons c cs l0 ls hc hsp] at h
        rcases List.mem_cons.mp h with h1 | h2
        · subst h1; simp
        · exact ih l (hsp ▸ List.mem_cons_of_mem l0 h2)

theorem mem_splitlines_nl_dropLast :
    ∀ (s l : List Char), l ∈ splitlines s → '\n' ∉ l.dropLast := by
  intro s
  induction s with
  | nil => intro l h; simp [splitlines] at h
  | cons c cs ih =>
    intro l h
    by_cases hc : c = '\n'
    · subst hc
      rw [splitlines_cons_nl] at h
      rcases List.mem_cons.mp h with h1 | h2
      · subst h1; simp
      · exact ih l h2
    · cases hsp : splitlines cs with
      | nil =>
        rw [splitlines_cons_not_nl_nil c cs hc hsp] at h
        rcases List.mem_cons.mp h with h1 | h2
        · subst h1; simp
        · simp at h2
      | cons l0 ls =>
        rw [splitlines_cons_not_nl_cons c cs l0 ls hc hsp] at h
        rcases List.mem_cons.mp h with h1 | h2
        · subst h1
          have hl0 : l0 ≠ [] := mem_splitlines_ne_nil cs l0 (hsp ▸ List.mem_cons_self l0 ls)
          have hdl : (c :: l0).dropLast = c :: l0.dropLast := by
            cases l0 with
            | nil => exact absurd rfl hl0
            | cons x xs => rfl
          rw [hdl]
          intro hmem
          rcases List.mem_cons.mp hmem with h3 | h4
          · exact hc h3.symm
          · exact ih l0 (hsp ▸ List.mem_cons_self l0 ls) h4
        · exact ih l (hsp ▸ List.mem_cons_of_mem l0 h2)

theorem getLast_cons_of_ne_nil {c : Char} {l : List Char} (h : l ≠ []) :
    (c :: l).getLast? = l.getLast? := by
  cases l with
  | nil => exact absurd rfl h
  | cons x xs => exact List.getLast?_cons_cons

theorem mem_splitlines_getLast :
    ∀ s : List Char, (s = [] ∨ s.getLast? = some '\n') →
      ∀ l ∈ splitlines s, l.getLast? = some '\n' := by
  intro s
  induction s with
  | nil => intro _ l h; simp [splitlines] at h
  | cons c cs ih =>
    intro hterm l h
    rcases hterm with h0 | hterm
    · exact absurd h0 (by simp)
    · by_cases hc : c = '\n'
      · subst hc
        rw [splitlines_cons_nl] at h
        rcases List.mem_cons.mp h with h1 | h2
        · subst h1; rfl
        · cases hcs : cs with
          | nil => rw [hcs] at h2; simp [splitlines] at h2
          | cons d ds =>
            have : cs.getLast? = some '\n' := by
              rw [hcs] at hterm ⊢
              rwa [List.getLast?_cons_cons] at hterm
            exact ih (Or.inr this) l (hcs ▸ h2)
      · cases hcs : cs with
        | nil =>
          rw [hcs] at hterm
          simp at hterm
          exact absurd hterm hc
        | cons d ds =>
          have hlast : cs.getLast? = some '\n' := by
            rw [hcs] at hterm ⊢
            rwa [List.getLast?_cons_cons] at hterm
          cases hsp : splitlines cs with
          | nil =>
            rw [hcs] at hsp
            exact absurd ((splitlines_eq_nil (d :: ds)).mp hsp) (by simp)
          | cons l0 ls =>
            rw [splitlines_cons_not_nl_cons c cs l0 ls hc hsp] at h
            rcases List.mem_cons.mp h with h1 | h2
            · subst h1
              have hl0 : l0 ≠ [] := mem_splitlines_ne_nil cs l0 (hsp ▸ List.mem_cons_self l0 ls)
              rw [getLast_cons_of_ne_nil hl0]
              exact ih (Or.inr hlast) l0 (hsp ▸ List.mem_cons_self l0 ls)
            · exact ih (Or.inr hlast) l (hsp ▸ List.mem_cons_of_mem l0 h2)

theorem mem_dropLast_splitlines_getLast :
    ∀ (s : List Char) (l : List Char), l ∈ (splitlines s).dropLast →
      l.getLast? = some '\n' := by
  intro s
  induction s with
  | nil => intro l h; simp [splitlines] at h
  | cons c cs ih =>
    intro l h
    by_cases hc : c = '\n'
    · subst hc
      rw [splitlines_cons_nl] at h
      cases hsp : splitlines cs with
      | nil => rw [hsp] at h; simp at h
      | cons l0 ls =>
        rw [hsp, List.dropLast_cons₂] at h
        rcases List.mem_cons.mp h with h1 | h2
        · subst h1; rfl
        · exact ih l (by rw [hsp]; exact h2)
    · cases hsp : splitlines cs with
      | nil =>
        rw [splitlines_cons_not_nl_nil c cs hc hsp] at h
        simp at h
      | cons l0 ls =>
        rw [splitlines_cons_not_nl_cons c cs l0 ls hc hsp] at h
        cases hls : ls with
        | nil => rw [hls] at h; simp at h
        | cons l1 ls1 =>
          rw [hls, List.dropLast_cons₂] at h
          rcases List.mem_cons.mp h with h1 | h2
          · subst h1
            have hl0 : l0 ≠ [] := mem_splitlines_ne_nil cs l0 (hsp ▸ List.mem_cons_self l0 ls)
            rw [getLast_cons_of_ne_nil hl0]
            exact ih l0 (by rw [hsp, hls, List.dropLast_cons₂]; exact List.mem_cons_self l0 _)
          · exact ih l (by rw [hsp, hls, List.dropLast_cons₂]; exact List.mem_cons_of_mem l0 h2)

theorem count_nl_le_splitlines_length :
    ∀ s : List Char, s.count '\n' ≤ (splitlines s).length := by
  intro s
  induction s with
  | nil => simp [splitlines]
  | cons c cs ih =>
    by_cases hc : c = '\n'
    · subst hc
      rw [splitlines_cons_nl, List.count_cons_self, List.length_cons]
      omega
    · rw [List.count_cons_of_ne (fun heq => hc heq.symm)]
      cases hsp : splitlines cs with
      | nil =>
        rw [splitlines_cons_not_nl_nil c cs hc hsp]
        rw [hsp] at ih
        simp at ih ⊢
        omega
      | cons l0 ls =>
        rw [splitlines_cons_not_nl_cons c cs l0 ls hc hsp]
        rw [hsp] at ih
        simpa using ih

theorem count_nl_le_one_of_dropLast (l : List Char) (h : '\n' ∉ l.dropLast) :
    l.count '\n' ≤ 1 := by
  cases hl : l with
  | nil => simp
  | cons x xs =>
    have hne : l ≠ [] := by rw [hl]; simp
    have hdecomp := List.dropLast_append_getLast hne
    rw [← hl]
    rw [← hdecomp, List.count_append]
    have h0 : l.dropLast.count '\n' = 0 := List.count_eq_zero.mpr h
    have h1 : [l.getLast hne].count '\n' ≤ 1 := by
      have h2 := List.count_le_length '\n' [l.getLast hne]
      simpa using h2
    omega

theorem fragTokens_map_text :
    ∀ (ls : List (List Char)) (n : Nat) (k : TokenKind),
      (fragTokens n k ls).map Tok.text = ls := by
  intro ls
  induction ls with
  | nil => intro n k; rfl
  | cons l rest ih =>
    intro n k
    rw [fragTokens, List.map_cons, ih]

theorem fragTokens_length :
    ∀ (ls : List (List Char)) (n : Nat) (k : TokenKind),
      (fragTokens n k ls).length = ls.length := by
  intro ls
  induction ls with
  | nil => intro n k; rfl
  | cons l rest ih =>
    intro n k
    rw [fragTokens, List.length_cons, ih, List.length_cons]

theorem fragTokens_getElem? :
    ∀ (ls : List (List Char)) (n : Nat) (k : TokenKind) (i : Nat),
      (fragTokens n k ls)[i]? =
        (ls[i]?).map (fun l => (⟨n + ((ls.take i).flatten).length, k, l⟩ : Tok)) := by
  intro ls
  induction ls with
  | nil => intro n k i; simp [fragTokens]
  | cons l rest ih =>
    intro n k i
    cases i with
    | zero => simp [fragTokens]
    | succ j =>
      rw [fragTokens, List.getElem?_cons_succ, List.getElem?_cons_succ, ih]
      cases h : rest[j]? with
      | none => simp [h]
      | some x =>
        simp [h, List.take_succ_cons, Tok.mk.injEq]
        omega

theorem splitTok_texts (t : Tok) : ((splitTok t).map Tok.text).flatten = t.text := by
  rw [splitTok]
  by_cases h : (splitlines t.text).length ≤ 1
  · rw [if_pos h]
    simp
  · rw [if_neg h, fragTokens_map_text, splitlines_flatten]

theorem split_multiline_cons (t : Tok) (ts : List Tok) :
    split_multiline_lex_tokens (t :: ts) = splitTok t ++ split_multiline_lex_tokens ts := by
  rw [split_multiline_lex_tokens, List.map_cons, List.flatten_cons,
    split_multiline_lex_tokens]

theorem mem_splitTok_nl_dropLast :
    ∀ (t t' : Tok), t' ∈ splitTok t → '\n' ∉ t'.text.dropLast := by
  intro t t' h
  rw [splitTok] at h
  by_cases hlen : (splitlines t.text).length ≤ 1
  · rw [if_pos hlen] at h
    rcases List.mem_cons.mp h with h1 | h2
    · rw [h1]
      cases hsp : splitlines t.text with
      | nil =>
        rw [(splitlines_eq_nil t.text).mp hsp]
        simp
      | cons l ls =>
        cases hls : ls with
        | nil =>
          have hflat := splitlines_flatten t.text
          rw [hsp, hls] at hflat
          simp at hflat
          rw [← hflat]
          exact mem_splitlines_nl_dropLast t.text l (hsp ▸ List.mem_cons_self l ls)
        | cons l1 ls1 =>
          rw [hsp, hls] at hlen
          simp at hlen
    · simp at h2
  · rw [if_neg hlen] at h
    have hmem : t'.text ∈ splitlines t.text := by
      rw [← fragTokens_map_text (splitlines t.text) t.offset t.kind]
      exact List.mem_map_of_mem Tok.text h
    exact mem_splitlines_nl_dropLast t.text t'.text hmem

/-- Claim C6: `split_multiline_lex_tokens` preserves reconstitution and
splits correctly: concatenating all output token texts equals concatenating
the input token texts; no output token text contains more than one line
terminator; and each fragment of an input token inherits the token kind, has
its offset advanced by the cumulative length of the previously emitted
fragments, and (except possibly the last fragment) retains its terminator at
the end. -/
theorem C6_split_tokens :
    ∀ toks : List Tok,
      ((split_multiline_lex_tokens toks).map Tok.text).flatten =
        ((toks.map Tok.text)).flatten ∧
      (∀ t' ∈ split_multiline_lex_tokens toks, t'.text.count '\n' ≤ 1) ∧
      (∀ t ∈ toks, ∀ (i : Nat) (frag : Tok), (splitTok t)[i]? = some frag →
        frag.kind = t.kind ∧
        frag.offset = t.offset + ((((splitTok t).take i).map Tok.text).flatten).length ∧
        (i + 1 < (splitTok t).length → frag.text.getLast? = some '\n')) := by
  intro toks
  refine ⟨?_, ?_, ?_⟩
  · induction toks with
    | nil => rfl
    | cons t ts ih =>
      rw [split_multiline_cons, List.map_append, List.flatten_append, ih, List.map_cons,
        List.flatten_cons, splitTok_texts]
  · intro t' h
    rw [split_multiline_lex_tokens] at h
    obtain ⟨l, hl, hmem⟩ := List.mem_flatten.mp h
    obtain ⟨t, _, rfl⟩ := List.mem_map.mp hl
    exact count_nl_le_one_of_dropLast t'.text (mem_splitTok_nl_dropLast t t' hmem)
  · intro t _ i frag hfrag
    rw [splitTok] at hfrag ⊢
    by_cases hlen : (splitlines t.text).length ≤ 1
    · rw [if_pos hlen] at hfrag ⊢
      cases i with
      | zero =>
        simp only [List.getElem?_cons_zero, Option.some.injEq] at hfrag
        subst hfrag
        refine ⟨rfl, by simp, ?_⟩
        intro hi
        simp at hi
      | succ j => simp at hfrag
    · rw [if_neg hlen] at hfrag ⊢
      rw [fragTokens_getElem?] at hfrag
      cases hget : (splitlines t.text)[i]? with
      | none => rw [hget] at hfrag; simp at hfrag
      | some l =>
        rw [hget] at hfrag
        simp only [Option.map_some', Option.some.injEq] at hfrag
        subst hfrag
        refine ⟨rfl, ?_, ?_⟩
        · show t.offset + (((splitlines t.text).take i).flatten).length = _
          rw [List.map_take, fragTokens_map_text]
        · intro hi
          rw [fragTokens_length] at hi
          have hmem : l ∈ (splitlines t.text).dropLast := by
            rw [List.dropLast_eq_take]
            have hi' : ((splitlines t.text).take ((splitlines t.text).length - 1))[i]? =
                some l := by
              rw [List.getElem?_take_of_lt (by omega)]
              exact hget
            exact List.getElem?_mem hi'
          exact mem_dropLast_splitlines_getLast t.text l hmem

/-- Witness for claim C6: the token `(5, comment, "a\nb")` splits into
`(5, comment, "a\n")` and `(7, comment, "b")`; the fragments reconstitute
the input and the second fragment's offset is the original offset advanced
by the length of the first fragment. -/
theorem C6_split_tokens_witness :
    ((split_multiline_lex_tokens [(⟨5, TokenKind.comment, ['a', '\n', 'b']⟩ : Tok)]).map
        Tok.text).flatten =
      ((([(⟨5, TokenKind.comment, ['a', '\n', 'b']⟩ : Tok)]).map Tok.text)).flatten ∧
    (⟨7, TokenKind.comment, ['b']⟩ : Tok).offset =
      (⟨5, TokenKind.comment, ['a', '\n', 'b']⟩ : Tok).offset +
        ((((splitTok ⟨5, TokenKind.comment, ['a', '\n', 'b']⟩).take 1).map
          Tok.text).flatten).length := by
  have h := C6_split_tokens [⟨5, TokenKind.comment, ['a', '\n', 'b']⟩]
  refine ⟨h.1, ?_⟩
  exact (h.2.2 ⟨5, TokenKind.comment, ['a', '\n', 'b']⟩ (List.mem_singleton.mpr rfl)
    1 ⟨7, TokenKind.comment, ['b']⟩ rfl).2.1

theorem tiles_nil_iff (n : Nat) (s : List Char) : tiles n [] s = true ↔ s = [] := by
  simp [tiles, List.isEmpty_iff]

theorem tiles_cons_iff (n : Nat) (t : Tok) (ts : List Tok) (s : List Char) :
    tiles n (t :: ts) s = true ↔
      t.offset = n ∧ t.text ≠ [] ∧ s.take t.text.length = t.text ∧
        tiles (n + t.text.length) ts (s.drop t.text.length) = true := by
  simp [tiles, List.isEmpty_iff, and_assoc]

theorem tiles_append :
    ∀ (a : List Tok) (n : Nat) (s1 : List Char) (b : List Tok) (s2 : List Char),
      tiles n a s1 = true → tiles (n + s1.length) b s2 = true →
      tiles n (a ++ b) (s1 ++ s2) = true := by
  intro a
  induction a with
  | nil =>
    intro n s1 b s2 h1 h2
    rw [tiles_nil_iff] at h1
    subst h1
    simpa using h2
  | cons t ts ih =>
    intro n s1 b s2 h1 h2
    obtain ⟨hoff, hne, htake, htiles⟩ := (tiles_cons_iff n t ts s1).mp h1
    have hlen : t.text.length ≤ s1.length := by
      by_contra hgt
      push_neg at hgt
      have := congrArg List.length htake
      rw [List.length_take] at this
      omega
    rw [List.cons_append]
    refine (tiles_cons_iff n t (ts ++ b) (s1 ++ s2)).mpr
      ⟨hoff, hne, ?_, ?_⟩
    · rw [List.take_append_of_le_length hlen]
      exact htake
    · rw [List.drop_append_of_le_length hlen]
      have hlen2 : n + t.text.length + (s1.drop t.text.length).length = n + s1.length := by
        rw [List.length_drop]
        omega
      exact ih (n + t.text.length) (s1.drop t.text.length) b s2 htiles (hlen2 ▸ h2)

theorem tiles_fragTokens :
    ∀ (ls : List (List Char)) (n : Nat) (k : TokenKind),
      (∀ l ∈ ls, l ≠ []) → tiles n (fragTokens n k ls) ls.flatten = true := by
  intro ls
  induction ls with
  | nil => intro n k _; rfl
  | cons l rest ih =>
    intro n k hne
    rw [fragTokens, List.flatten_cons]
    refine (tiles_cons_iff n ⟨n, k, l⟩ (fragTokens (n + l.length) k rest)
      (l ++ rest.flatten)).mpr ⟨rfl, hne l (List.mem_cons_self l rest), ?_, ?_⟩
    · exact List.take_left l rest.flatten
    · show tiles (n + l.length) _ ((l ++ rest.flatten).drop l.length) = true
      rw [List.drop_left]
      exact ih (n + l.length) k (fun x hx => hne x (List.mem_cons_of_mem l hx))

theorem tiles_splitTok (t : Tok) (n : Nat) (hoff : t.offset = n) (hne : t.text ≠ []) :
    tiles n (splitTok t) t.text = true := by
  rw [splitTok]
  by_cases hlen : (splitlines t.text).length ≤ 1
  · rw [if_pos hlen]
    refine (tiles_cons_iff n t [] t.text).mpr ⟨hoff, hne, ?_, ?_⟩
    · exact List.take_length t.text
    · rw [List.drop_length]
      rfl
  · rw [if_neg hlen]
    have h := tiles_fragTokens (splitlines t.text) n t.kind
      (fun l hl => mem_splitlines_ne_nil t.text l hl)
    rw [splitlines_flatten] at h
    rw [hoff]
    exact h

theorem tiles_split :
    ∀ (toks : List Tok) (n : Nat) (s : List Char),
      tiles n toks s = true → tiles n (split_multiline_lex_tokens toks) s = true := by
  intro toks
  induction toks with
  | nil => intro n s h; exact h
  | cons t ts ih =>
    intro n s h
    obtain ⟨hoff, hne, htake, htiles⟩ := (tiles_cons_iff n t ts s).mp h
    have hs : s = t.text ++ s.drop t.text.length := by
      conv_lhs => rw [← List.take_append_drop t.text.length s]
      rw [htake]
    rw [split_multiline_cons, hs]
    exact tiles_append (splitTok t) n t.text (split_multiline_lex_tokens ts)
      (s.drop t.text.length) (tiles_splitTok t n hoff hne)
      (by
        have hlen : t.text.length ≤ s.length := by
          by_contra hgt
          push_neg at hgt
          have := congrArg List.length htake
          rw [List.length_take] at this
          omega
        exact ih (n + t.text.length) (s.drop t.text.length) htiles)

theorem lineEndsGo_no_nl :
    ∀ (s : List Char) (i : Nat), '\n' ∉ s → lineEndsGo i s = [] := by
  intro s
  induction s with
  | nil => intro i _; rfl
  | cons c cs ih =>
    intro i h
    have hc : ¬ c = '\n' := fun heq => h (heq ▸ List.mem_cons_self c cs)
    rw [lineEndsGo, if_neg hc]
    exact ih (i + 1) (fun hm => h (List.mem_cons_of_mem c hm))

theorem lineEndsGo_append_line :
    ∀ (l : List Char), terminatedLine l →
      ∀ (n : Nat) (rest : List Char),
        lineEndsGo (n + 1) (l ++ rest) = (n + l.length) :: lineEndsGo (n + l.length + 1) rest := by
  intro l
  induction l with
  | nil => intro hterm; exact absurd rfl hterm.1
  | cons c l' ih =>
    intro hterm n rest
    obtain ⟨_, hlast, hdrop⟩ := hterm
    cases hl' : l' with
    | nil =>
      rw [hl'] at hlast
      simp at hlast
      subst hlast
      rw [List.cons_append, List.nil_append, lineEndsGo, if_pos rfl]
      simp
    | cons d ds =>
      have hc : ¬ c = '\n' := by
        intro heq
        apply hdrop
        rw [hl']
        rw [List.dropLast_cons₂]
        exact heq ▸ List.mem_cons_self c _
      have hterm' : terminatedLine l' := by
        refine ⟨by rw [hl']; simp, ?_, ?_⟩
        · rw [← hlast, hl', List.getLast?_cons_cons]
        · intro hmem
          apply hdrop
          rw [hl', List.dropLast_cons₂]
          exact List.mem_cons_of_mem c (hl' ▸ hmem)
      rw [List.cons_append, lineEndsGo, if_neg hc]
      have := ih hterm' (n + 1) rest
      rw [← hl', this]
      have harith1 : n + 1 + l'.length = n + (c :: l').length := by simp; omega
      rw [harith1]

/-- The tokens that tile one terminated line are exactly those whose offsets
lie before the line end; they are nonempty, reconstitute the line, and the
remaining tokens tile the remaining text.  This is the invariant of the
while-loop of `group_tokens_by_line` for a single line-end index. -/
theorem consume_line :
    ∀ (toks : List Tok) (n : Nat) (l rest : List Char),
      terminatedLine l →
      tiles n toks (l ++ rest) = true →
      (∀ t ∈ toks, '\n' ∉ t.text.dropLast) →
      toks.takeWhile (fun t => decide (t.offset < n + l.length)) ≠ [] ∧
      ((toks.takeWhile (fun t => decide (t.offset < n + l.length))).map Tok.text).flatten = l ∧
      tiles (n + l.length) (toks.dropWhile (fun t => decide (t.offset < n + l.length))) rest
        = true := by
  intro toks
  induction toks with
  | nil =>
    intro n l rest hterm htiles _
    rw [tiles_nil_iff] at htiles
    obtain ⟨hl, _⟩ := List.append_eq_nil.mp htiles
    exact absurd hl hterm.1
  | cons t ts ih =>
    intro n l rest hterm htiles hnl
    obtain ⟨hoff, hne, htake, hrest⟩ := (tiles_cons_iff n t ts (l ++ rest)).mp htiles
    obtain ⟨hlne, hlast, hdrop⟩ := hterm
    have hl1 : 0 < l.length := List.length_pos.mpr hlne
    have hpred : decide (t.offset < n + l.length) = true := by
      simp only [decide_eq_true_eq]
      omega
    rw [show List.takeWhile (fun x => decide (x.offset < n + l.length)) (t :: ts) =
        t :: List.takeWhile (fun x => decide (x.offset < n + l.length)) ts from by
      simp only [List.takeWhile_cons, hpred]
      simp]
    rw [show List.dropWhile (fun x => decide (x.offset < n + l.length)) (t :: ts) =
        List.dropWhile (fun x => decide (x.offset < n + l.length)) ts from by
      simp only [List.dropWhile_cons, hpred]
      simp]
    rcases lt_trichotomy t.text.length l.length with hlt | heq | hgt
    · have htt : l.take t.text.length = t.text := by
        rw [List.take_append_of_le_length (le_of_lt hlt)] at htake
        exact htake
      have hlsplit : l = t.text ++ l.drop t.text.length := by
        conv_lhs => rw [← List.take_append_drop t.text.length l]
        rw [htt]
      have hl₂len : (l.drop t.text.length).length = l.length - t.text.length :=
        List.length_drop t.text.length l
      have hl₂ne : l.drop t.text.length ≠ [] := by
        intro h0
        rw [h0] at hl₂len
        simp at hl₂len
        omega
      have hterm₂ : terminatedLine (l.drop t.text.length) := by
        refine ⟨hl₂ne, ?_, ?_⟩
        · rw [hlsplit, List.getLast?_append_of_ne_nil t.text hl₂ne] at hlast
          exact hlast
        · intro hmem
          apply hdrop
          rw [hlsplit, List.dropLast_append_of_ne_nil t.text hl₂ne]
          exact List.mem_append_right t.text hmem
      have hrest' : tiles (n + t.text.length) ts (l.drop t.text.length ++ rest) = true := by
        have hd : (l ++ rest).drop t.text.length = l.drop t.text.length ++ rest := by
          conv_lhs => rw [hlsplit]
          rw [List.append_assoc, List.drop_left]
        rwa [hd] at hrest
      have hIH := ih (n + t.text.length) (l.drop t.text.length) rest hterm₂ hrest'
        (fun x hx => hnl x (List.mem_cons_of_mem t hx))
      have hbound : n + t.text.length + (l.drop t.text.length).length = n + l.length := by
        rw [hl₂len]
        omega
      rw [hbound] at hIH
      obtain ⟨hne', hjoin', htiles'⟩ := hIH
      refine ⟨by simp, ?_, htiles'⟩
      rw [List.map_cons, List.flatten_cons, hjoin']
      exact hlsplit.symm
    · have htt : t.text = l := by
        rw [heq, List.take_left] at htake
        exact htake.symm
      have hdropr : (l ++ rest).drop t.text.length = rest := by
        rw [heq, List.drop_left]
      rw [hdropr] at hrest
      rw [heq] at hrest
      have hts : ts.takeWhile (fun x => decide (x.offset < n + l.length)) = [] ∧
          ts.dropWhile (fun x => decide (x.offset < n + l.length)) = ts := by
        cases ts with
        | nil => exact ⟨rfl, rfl⟩
        | cons t₂ ts₂ =>
          obtain ⟨hoff₂, _, _, _⟩ := (tiles_cons_iff _ _ _ _).mp hrest
          have hpred₂ : decide (t₂.offset < n + l.length) = false := by
            simp only [decide_eq_false_iff_not]
            omega
          constructor
          · simp only [List.takeWhile_cons, hpred₂]
            simp
          · simp only [List.dropWhile_cons, hpred₂]
            simp
      rw [hts.1, hts.2]
      refine ⟨by simp, ?_, hrest⟩
      rw [List.map_cons, List.map_nil, List.flatten_cons, List.flatten_nil,
        List.append_nil]
      exact htt
    · exfalso
      have hll : t.text.take l.length = l := by
        rw [← htake, List.take_take, min_eq_left (le_of_lt hgt), List.take_left]
      have hsplit : t.text = l ++ t.text.drop l.length := by
        conv_lhs => rw [← List.take_append_drop l.length t.text]
        rw [hll]
      have hmlen : (t.text.drop l.length).length = t.text.length - l.length :=
        List.length_drop l.length t.text
      have hmne : t.text.drop l.length ≠ [] := by
        intro h0
        rw [h0] at hmlen
        simp at hmlen
        omega
      have hdl : t.text.dropLast = l ++ (t.text.drop l.length).dropLast := by
        conv_lhs => rw [hsplit]
        exact List.dropLast_append_of_ne_nil l hmne
      have hnlt := hnl t (List.mem_cons_self t ts)
      rw [hdl] at hnlt
      exact hnlt (List.mem_append_left _ (List.mem_of_mem_getLast? hlast))

theorem natConsec_getElem? {α : Type} :
    ∀ (vs : List α) (s i : Nat),
      (natConsec s vs)[i]? = (vs[i]?).map (fun v => (s + i, v)) := by
  intro vs
  induction vs with
  | nil => intro s i; simp [natConsec]
  | cons v rest ih =>
    intro s i
    cases i with
    | zero => simp [natConsec]
    | succ j =>
      rw [natConsec, List.getElem?_cons_succ, List.getElem?_cons_succ, ih]
      cases h : rest[j]? with
      | none => simp [h]
      | some x =>
        simp [h]
        omega

theorem consec_length {α : Type} :
    ∀ (vs : List α) (s : Int), (consec s vs).length = vs.length := by
  intro vs
  induction vs with
  | nil => intro s; rfl
  | cons v rest ih =>
    intro s
    rw [consec, List.length_cons, ih, List.length_cons]

theorem consec_getElem? {α : Type} :
    ∀ (vs : List α) (s : Int) (i : Nat),
      (consec s vs)[i]? = (vs[i]?).map (fun v => (s + i, v)) := by
  intro vs
  induction vs with
  | nil => intro s i; simp [consec]
  | cons v rest ih =>
    intro s i
    cases i with
    | zero => simp [consec]
    | succ j =>
      rw [consec, List.getElem?_cons_succ, List.getElem?_cons_succ, ih]
      cases h : rest[j]? with
      | none => simp [h]
      | some x =>
        simp [h]
        omega

theorem mapIntKeys_natConsec {α : Type} :
    ∀ (vs : List α) (s : Nat), mapIntKeys (natConsec s vs) = consec (s : Int) vs := by
  intro vs
  induction vs with
  | nil => intro s; rfl
  | cons v rest ih =>
    intro s
    rw [natConsec, consec, mapIntKeys, List.map_cons, ← mapIntKeys, ih]
    have : ((s + 1 : Nat) : Int) = (s : Int) + 1 := by push_cast; ring
    rw [this]

theorem consec_map_fst {α : Type} :
    ∀ (vs : List α) (s : Int), (consec s vs).map Prod.fst = intRangeGo s vs.length := by
  intro vs
  induction vs with
  | nil => intro s; rfl
  | cons v rest ih =>
    intro s
    rw [consec, List.map_cons, List.length_cons, intRangeGo, ih]

theorem foldl_min_intRangeGo :
    ∀ (n : Nat) (a x : Int), x ≤ a → (intRangeGo a n).foldl min x = x := by
  intro n
  induction n with
  | zero => intro a x _; rfl
  | succ m ih =>
    intro a x hx
    rw [intRangeGo, List.foldl_cons, min_eq_left hx]
    exact ih (a + 1) x (by omega)

theorem foldl_max_intRangeGo :
    ∀ (n : Nat) (s : Int), (intRangeGo (s + 1) n).foldl max s = s + n := by
  intro n
  induction n with
  | zero => intro s; simp [intRangeGo]
  | succ m ih =>
    intro s
    rw [intRangeGo, List.foldl_cons, max_eq_right (by omega : s ≤ s + 1)]
    have := ih (s + 1)
    rw [show s + 1 + 1 = (s + 1) + 1 from rfl] at this
    rw [this]
    push_cast
    ring

theorem fillGo_skip_head {α : Type} (s : Int) (v : α) (rest : List (Int × α)) :
    ∀ (ks : List Int) (prev : Option α), (∀ k ∈ ks, k ≠ s) →
      fillGo ((s, v) :: rest) prev ks = fillGo rest prev ks := by
  intro ks
  induction ks with
  | nil => intro prev _; rfl
  | cons k krest ih =>
    intro prev hne
    have hk : k ≠ s := hne k (List.mem_cons_self k krest)
    have hlk : pylookup ((s, v) :: rest) k = pylookup rest k := by
      rw [pylookup_cons, if_neg (fun heq => hk heq.symm)]
    cases h : pylookup rest k with
    | none =>
      simp only [fillGo, hlk, h]
      rw [ih prev (fun j hj => hne j (List.mem_cons_of_mem k hj))]
    | some w =>
      simp only [fillGo, hlk, h]
      rw [ih (some w) (fun j hj => hne j (List.mem_cons_of_mem k hj))]

theorem fillGo_consec {α : Type} :
    ∀ (vs : List α) (s : Int) (prev : Option α),
      fillGo (consec s vs) prev (intRangeGo s vs.length) = consec s (vs.map some) := by
  intro vs
  induction vs with
  | nil => intro s prev; rfl
  | cons v rest ih =>
    intro s prev
    rw [List.length_cons, intRangeGo, consec]
    have hlk : pylookup ((s, v) :: consec (s + 1) rest) s = some v := by
      rw [pylookup_cons, if_pos rfl]
    simp only [fillGo, hlk]
    rw [fillGo_skip_head s v (consec (s + 1) rest) (intRangeGo (s + 1) rest.length)
      (some v) (fun k hk => by
        have := (intRangeGo_mem rest.length (s + 1) k).mp hk
        omega)]
    rw [ih (s + 1) (some v)]
    rw [List.map_cons, consec]

theorem front_fill_consec {α : Type} :
    ∀ (vs : List α) (s : Int), front_fill_gaps (consec s vs) = consec s (vs.map some) := by
  intro vs s
  cases vs with
  | nil => rfl
  | cons v rest =>
    rw [consec, front_fill_gaps_cons, consec_map_fst]
    have hmn : (intRangeGo (s + 1) rest.length).foldl min s = s :=
      foldl_min_intRangeGo rest.length (s + 1) s (by omega)
    have hmx : (intRangeGo (s + 1) rest.length).foldl max s = s + rest.length :=
      foldl_max_intRangeGo rest.length s
    rw [hmn, hmx]
    have hrange : intRange s (s + rest.length) = intRangeGo s (rest.length + 1) := by
      rw [intRange, show s + (rest.length : Int) + 1 - s = ((rest.length + 1 : Nat) : Int)
        from by push_cast; ring]
      rw [Int.toNat_ofNat]
    rw [hrange, ← consec]
    have := fillGo_consec (v :: rest) s none
    rw [List.length_cons] at this
    rw [this]

/-- Behaviour of the grouping loop on a sequence of terminated lines: it
produces one entry per line, keyed consecutively from `no`, whose tokens are
nonempty and reconstitute the line. -/
theorem groupGo_spec :
    ∀ (lines : List (List Char)) (toks : List Tok) (n no : Nat),
      (∀ l ∈ lines, terminatedLine l) →
      tiles n toks lines.flatten = true →
      (∀ t ∈ toks, '\n' ∉ t.text.dropLast) →
      ∃ gs : List (List Tok),
        groupGo no (lineEndsGo (n + 1) lines.flatten) toks = natConsec no gs ∧
        gs.map (fun g => (g.map Tok.text).flatten) = lines ∧
        ∀ g ∈ gs, g ≠ [] := by
  intro lines
  induction lines with
  | nil =>
    intro toks n no _ _ _
    exact ⟨[], rfl, rfl, by simp⟩
  | cons l ls ih =>
    intro toks n no hterm htiles hnl
    have htl : terminatedLine l := hterm l (List.mem_cons_self l ls)
    rw [List.flatten_cons] at htiles
    obtain ⟨hgne, hgjoin, hgtiles⟩ := consume_line toks n l ls.flatten htl htiles hnl
    have hends : lineEndsGo (n + 1) (l :: ls).flatten =
        (n + l.length) :: lineEndsGo (n + l.length + 1) ls.flatten := by
      rw [List.flatten_cons]
      exact lineEndsGo_append_line l htl n ls.flatten
    have hsubset : ∀ t ∈ toks.dropWhile (fun t => decide (t.offset < n + l.length)),
        '\n' ∉ t.text.dropLast :=
      fun t ht => hnl t ((List.dropWhile_sublist _).subset ht)
    obtain ⟨gs, hgo, hmap, hne0⟩ := ih
      (toks.dropWhile (fun t => decide (t.offset < n + l.length)))
      (n + l.length) (no + 1)
      (fun l' hl' => hterm l' (List.mem_cons_of_mem l hl'))
      hgtiles hsubset
    refine ⟨toks.takeWhile (fun t => decide (t.offset < n + l.length)) :: gs, ?_, ?_, ?_⟩
    · rw [hends, groupGo]
      have hempty : (toks.takeWhile (fun t => decide (t.offset < n + l.length))).isEmpty
          = false := by
        cases hgc : toks.takeWhile (fun t => decide (t.offset < n + l.length)) with
        | nil => exact absurd hgc hgne
        | cons x xs => rfl
      rw [if_neg (by rw [hempty]; simp)]
      rw [natConsec, hgo]
    · rw [List.map_cons, hgjoin, hmap]
    · intro g hg
      rcases List.mem_cons.mp hg with h1 | h2
      · rw [h1]; exact hgne
      · exact hne0 g h2

/-- Claim C1 counterexample: for a text whose final line is unterminated
(here the single-line text `"a"` with `N = 1`), `line_ends_idx` records no
line end, so `group_tokens_by_line` assigns the trailing token to no line and
the front-filled mapping has `0` entries instead of `N = 1`. -/
theorem C1_counterexample :
    tiles 0 [(⟨0, TokenKind.text, ['a']⟩ : Tok)] ['a'] = true ∧
    (splitlines ['a']).length = 1 ∧
    ¬ ((front_fill_gaps (mapIntKeys (group_tokens_by_line ['a']
        (split_multiline_lex_tokens [(⟨0, TokenKind.text, ['a']⟩ : Tok)])))).length =
      (splitlines ['a']).length) := by
  refine ⟨by decide, by decide, by decide⟩

/-- Claim C1 (amended): for every text all of whose physical lines are
terminated (the text is empty or ends with a line terminator) and every
token stream satisfying the tokenizer contract (`tiles`), grouping the split
tokens by line and front-filling gaps yields a mapping with exactly `N`
entries, one for every line index in `[0, N)` (entry `i` carries key `i`),
and the concatenation of line `i`'s token texts is the `i`-th physical line
including its terminator.  (For a text with an unterminated final line the
tokens past the last terminator are dropped; see the counterexample.) -/
theorem C1_line_grouping (text : List Char) (raw : List Tok)
    (hterm : text = [] ∨ text.getLast? = some '\n')
    (htiles : tiles 0 raw text = true) :
    (front_fill_gaps (mapIntKeys (group_tokens_by_line text
        (split_multiline_lex_tokens raw)))).length = (splitlines text).length ∧
    ∀ i : Nat, i < (splitlines text).length →
      ∃ g : List Tok,
        (front_fill_gaps (mapIntKeys (group_tokens_by_line text
            (split_multiline_lex_tokens raw))))[i]? = some (((i : Nat) : Int), some g) ∧
        (splitlines text)[i]? = some ((g.map Tok.text).flatten) := by
  have htiles' : tiles 0 (split_multiline_lex_tokens raw) text = true :=
    tiles_split raw 0 text htiles
  have hnl : ∀ t ∈ split_multiline_lex_tokens raw, '\n' ∉ t.text.dropLast := by
    intro t ht
    rw [split_multiline_lex_tokens] at ht
    obtain ⟨l, hl, hmem⟩ := List.mem_flatten.mp ht
    obtain ⟨t0, _, rfl⟩ := List.mem_map.mp hl
    exact mem_splitTok_nl_dropLast t0 t hmem
  have hlines : ∀ l ∈ splitlines text, terminatedLine l := fun l hl =>
    ⟨mem_splitlines_ne_nil text l hl, mem_splitlines_getLast text hterm l hl,
     mem_splitlines_nl_dropLast text l hl⟩
  have hflat : (splitlines text).flatten = text := splitlines_flatten text
  obtain ⟨gs, hgo, hmap, _⟩ := groupGo_spec (splitlines text)
    (split_multiline_lex_tokens raw) 0 0 hlines (by rw [hflat]; exact htiles') hnl
  have hgeq : group_tokens_by_line text (split_multiline_lex_tokens raw) = natConsec 0 gs := by
    rw [group_tokens_by_line, line_ends_idx]
    have h1 : lineEndsGo 1 text = lineEndsGo (0 + 1) (splitlines text).flatten := by
      rw [hflat]
    rw [h1]
    exact hgo
  rw [hgeq, mapIntKeys_natConsec, front_fill_consec]
  constructor
  · rw [consec_length, List.length_map, ← hmap, List.length_map]
  · intro i hi
    have hlen : i < gs.length := by
      rw [← hmap, List.length_map] at hi
      exact hi
    cases hgi : gs[i]? with
    | none =>
      rw [List.getElem?_eq_none_iff] at hgi
      omega
    | some g =>
      refine ⟨g, ?_, ?_⟩
      · rw [consec_getElem?, List.getElem?_map, hgi]
        simp
      · rw [← hmap, List.getElem?_map, hgi]
        rfl

/-- Witness for claim C1: the terminated one-line text `"x\n"`, tokenized as
a single token, produces a front-filled grouping with exactly one entry. -/
theorem C1_line_grouping_witness :
    (front_fill_gaps (mapIntKeys (group_tokens_by_line ['x', '\n']
        (split_multiline_lex_tokens [(⟨0, TokenKind.text, ['x', '\n']⟩ : Tok)])))).length =
      (splitlines ['x', '\n']).length :=
  (C1_line_grouping ['x', '\n'] [⟨0, TokenKind.text, ['x', '\n']⟩]
    (Or.inr (by decide)) (by decide)).1

end PatchScope
